import Mathlib

/-!
Verification of the tsvfirst streaming line-deduplication filter.

The repository has three Rust source files:
- src/main.rs: the binary; RunConfig, run (the dedup engine), get_config,
  parse_field_spec.
- src/tsvfirst.rs: an alternative copy of the same engine loop (pub fn run),
  line-for-line the same algorithm as main.rs run.
- src/config.rs: a Config builder (Config::new etc.) and reader construction.

Bytes are modelled as Nat (values of u8; no arithmetic is performed on them,
so no wrap-around modelling is needed).  Vec<u8> becomes List Nat.
The HashSet<Vec<u8>> of seen keys is modelled as a List (List Nat) used only
through membership and insertion, which matches the set semantics (insert
returns whether the key was newly added).

The regex delimiters: tab mode uses the pattern for a single tab byte, so a
split piece boundary sits at every 0x09; whitespace mode uses the pattern for
one-or-more whitespace characters, i.e. each maximal whitespace run is one
delimiter, and (as with the Rust regex split) an empty piece is produced
before a leading run and after a trailing run.  The whitespace class is
modelled as the six ASCII whitespace bytes; the Rust regex additionally
matches multi-byte UTF-8 whitespace sequences, which no claim exercises.
-/

/-- The six ASCII bytes matched by the whitespace character class. -/
def isWS (b : Nat) : Bool :=
  b = 32 || b = 9 || b = 10 || b = 13 || b = 11 || b = 12

/-- Split a list at every occurrence of the single delimiter element d,
keeping empty pieces (the semantics of the regex split on a single-byte
pattern, and of splitting a string on a comma character). -/
def splitOnElem {α : Type} [DecidableEq α] (d : α) : List α → List (List α)
  | [] => [[]]
  | a :: as =>
    if a = d then [] :: splitOnElem d as
    else
      match splitOnElem d as with
      | f :: r => (a :: f) :: r
      | [] => [[a]]

/-- Tab-mode field splitting: split at every 0x09 byte. -/
def splitTab : List Nat → List (List Nat) := splitOnElem 9

/-- Worker for whitespace-mode splitting.  The flag records whether the
previous byte was part of a whitespace run that has already produced its
piece boundary (so further run bytes are absorbed). -/
def splitWSGo : List Nat → Bool → List (List Nat)
  | [], _ => [[]]
  | b :: bs, inRun =>
    if isWS b then
      if inRun then splitWSGo bs true
      else [] :: splitWSGo bs true
    else
      match splitWSGo bs false with
      | f :: r => (b :: f) :: r
      | [] => [[b]]

/-- Whitespace-mode field splitting: each maximal whitespace run is one
delimiter; pieces before a leading run and after a trailing run are empty. -/
def splitWS (l : List Nat) : List (List Nat) := splitWSGo l false

/-- The resolved configuration consumed by the engine (main.rs RunConfig).
The input selector of the Rust struct chooses the byte stream; here the
stream is passed to run directly, so only the three engine-relevant
components are kept.  fields is the ordered 0-indexed field specification. -/
structure RunConfig where
  fields : List Nat
  sorted : Bool
  whitespace : Bool
deriving DecidableEq, Repr

/-- Default for RunConfig in main.rs: fields = vec![0], unsorted, tab mode. -/
def RunConfig.default : RunConfig :=
  { fields := [0], sorted := false, whitespace := false }

/-- Field splitting selected by the whitespace flag (the delim regex choice
at the top of run). -/
def splitFields (cfg : RunConfig) (line : List Nat) : List (List Nat) :=
  if cfg.whitespace then splitWS line else splitTab line

/-- Iterator.nth on a list iterator: consume n + 1 elements, returning the
element at offset n together with the rest of the iterator, or none if the
iterator has fewer than n + 1 elements left. -/
def nthConsume {α : Type} : Nat → List α → Option (α × List α)
  | _, [] => none
  | 0, f :: fs => some (f, fs)
  | n + 1, _ :: fs => nthConsume n fs

/-- The key-building loop of run: walk the field indices, advancing the
field iterator by idx - last_idx each time; append the raw bytes of each
field that exists; stop at the first absent field (the break). -/
def extractKeyGo : List Nat → List (List Nat) → Nat → List Nat
  | [], _, _ => []
  | idx :: idxs, fields, lastIdx =>
    match nthConsume (idx - lastIdx) fields with
    | some (column, rest) => column ++ extractKeyGo idxs rest (idx + 1)
    | none => []

/-- Key extraction for one record: split the line (including its terminator
byte) into fields and concatenate the requested columns. -/
def extractKey (cfg : RunConfig) (line : List Nat) : List Nat :=
  extractKeyGo cfg.fields (splitFields cfg line) 0

/-- The lines delivered by the read_until(0x0A) loop: each line is a maximal
chunk ending in 0x0A, except that a final unterminated chunk is also a line.
Every produced line is nonempty; an empty read means end of stream. -/
def splitLines : List Nat → List (List Nat)
  | [] => []
  | b :: bs =>
    if b = 10 then [10] :: splitLines bs
    else
      match splitLines bs with
      | l :: ls => (b :: l) :: ls
      | [] => [[b]]

/-- The pure decision core of the run loop: which lines are kept, given the
current seen set (unsorted mode) and remembered previous key (sorted mode).
This is the loop of run with the I/O stripped out. -/
def keepLoop (cfg : RunConfig) :
    List (List Nat) → List (List Nat) → Option (List Nat) → List (List Nat)
  | [], _, _ => []
  | line :: rest, seen, last =>
    let key := extractKey cfg line
    if cfg.sorted then
      match last with
      | some lastKey =>
        if lastKey = key then keepLoop cfg rest seen last
        else line :: keepLoop cfg rest seen (some key)
      | none => line :: keepLoop cfg rest seen (some key)
    else
      if key ∈ seen then keepLoop cfg rest seen last
      else line :: keepLoop cfg rest (key :: seen) last

/-- An input stream: the bytes it delivers, and whether the read that would
otherwise report end-of-stream fails with an I/O error instead. -/
structure InStream where
  bytes : List Nat
  readFails : Bool
deriving DecidableEq, Repr

/-- The I/O failures the engine can meet. -/
inductive RunError where
  | readError
  | writeError
  | flushError
deriving DecidableEq, Repr

/-- An output sink: writeFailsAt k makes the k-th write_all call (0-based)
return an error; flushFails makes the final flush return an error. -/
structure OutSink where
  writeFailsAt : Option Nat
  flushFails : Bool
deriving DecidableEq, Repr

/-- A sink on which every write and the flush succeed. -/
def cleanSink : OutSink :=
  { writeFailsAt := none, flushFails := false }

/-- The engine loop of run (identical in main.rs and tsvfirst.rs).  One
iteration per line; the loop head is while let Ok(_) = read_until(..), so
when the stream is exhausted the next read either returns Err (readFails:
the while-let pattern fails and the loop exits) or Ok with an empty line
(the explicit EOF break) - both fall through to the single flush.  A kept
line is written with write_all(&line)?, so a write failure aborts the run;
wc counts the write_all calls made so far. -/
def runLoop (cfg : RunConfig) (sink : OutSink) :
    List (List Nat) → Bool → List (List Nat) → Option (List Nat) → Nat →
    Except RunError (List Nat)
  | [], _, _, _, _ =>
    if sink.flushFails then .error .flushError else .ok []
  | line :: rest, readFails, seen, last, wc =>
    let key := extractKey cfg line
    let step : Bool × List (List Nat) × Option (List Nat) :=
      if cfg.sorted then
        match last with
        | some lastKey =>
          if lastKey = key then (false, seen, last) else (true, seen, some key)
        | none => (true, seen, some key)
      else
        if key ∈ seen then (false, seen, last) else (true, key :: seen, last)
    match step with
    | (false, seen1, last1) => runLoop cfg sink rest readFails seen1 last1 wc
    | (true, seen1, last1) =>
      if sink.writeFailsAt = some wc then .error .writeError
      else (fun out => line ++ out) <$> runLoop cfg sink rest readFails seen1 last1 (wc + 1)

/-- The engine: fn run of main.rs (and the identical pub fn run of
tsvfirst.rs), over a modelled input stream and output sink. -/
def run (cfg : RunConfig) (input : InStream) (sink : OutSink) :
    Except RunError (List Nat) :=
  runLoop cfg sink (splitLines input.bytes) input.readFails [] none 0

/-- The bytes the engine writes on a failure-free sink: the concatenation of
the kept lines. -/
def runPure (cfg : RunConfig) (bytes : List Nat) : List Nat :=
  (keepLoop cfg (splitLines bytes) [] none).flatten

/-- The order-preserving first-occurrence filter, written from the spec:
keep a record exactly when its key is not among the keys of the strictly
earlier records (the accumulator is the list of keys of all records already
passed, kept or dropped). -/
def specFirstOccurrence (key : List Nat → List Nat) :
    List (List Nat) → List (List Nat) → List (List Nat)
  | _, [] => []
  | earlierKeys, l :: ls =>
    if key l ∈ earlierKeys then specFirstOccurrence key (earlierKeys ++ [key l]) ls
    else l :: specFirstOccurrence key (earlierKeys ++ [key l]) ls

/-- Boolean test that equal keys are contiguous: whenever a key occurs again
somewhere later in the list, it must already be the immediately following
key. -/
def groupedB : List (List Nat) → Bool
  | [] => true
  | k :: ks => (!(ks.contains k) || (ks.head? == some k)) && groupedB ks

/-- Equal-keyed records are contiguous (the sorted-mode precondition). -/
def Grouped (ks : List (List Nat)) : Prop := groupedB ks = true

instance (ks : List (List Nat)) : Decidable (Grouped ks) := by
  unfold Grouped; infer_instance

/-- The value of a decimal digit character, none for a non-digit. -/
def decDigit? (c : Char) : Option Nat :=
  if '0' ≤ c ∧ c ≤ '9' then some (c.toNat - 48) else none

/-- Accumulate the value of a digit string, none at the first non-digit. -/
def digitsVal : Nat → List Char → Option Nat
  | acc, [] => some acc
  | acc, c :: cs =>
    match decDigit? c with
    | some d => digitsVal (acc * 10 + d) cs
    | none => none

/-- usize::from_str: an optional leading plus sign, then one or more decimal
digits; the value must fit in 64 bits (usize on the supported targets). -/
def parseUsize (s : List Char) : Option Nat :=
  let t := match s with
    | '+' :: r => r
    | _ => s
  match t with
  | [] => none
  | _ =>
    match digitsVal 0 t with
    | some v => if v < 2 ^ 64 then some v else none
    | none => none

/-- The three failure messages of parse_field_spec: a usize parse failure
propagated by the question-mark operator, the explicit rejection of zero,
and the empty-specification message. -/
inductive FieldSpecError where
  | invalidField
  | zeroField
  | noFields
deriving DecidableEq, Repr

/-- The token loop of parse_field_spec: parse each comma-separated token as
usize (failing on the first bad token), reject zero, and push the 0-indexed
value field - 1. -/
def parseFieldTokens : List (List Char) → Except FieldSpecError (List Nat)
  | [] => .ok []
  | t :: ts =>
    match parseUsize t with
    | none => .error .invalidField
    | some field =>
      if field = 0 then .error .zeroField
      else (fun fs => (field - 1) :: fs) <$> parseFieldTokens ts

/-- Insert into an ascending list (helper for the model of Vec::sort). -/
def insertSorted (x : Nat) : List Nat → List Nat
  | [] => [x]
  | y :: l => if x ≤ y then x :: y :: l else y :: insertSorted x l

/-- Vec::sort on a Vec<usize>, modelled by insertion sort (on a total order
any correct sort produces the same list). -/
def sortAsc : List Nat → List Nat
  | [] => []
  | x :: l => insertSorted x (sortAsc l)

/-- Worker for Vec::dedup: drop every element equal to the retained element
immediately before it. -/
def dedupAdjGo (prev : Nat) : List Nat → List Nat
  | [] => []
  | b :: l => if b = prev then dedupAdjGo prev l else b :: dedupAdjGo b l

/-- Vec::dedup: remove consecutive duplicates, keeping the first of each
run. -/
def dedupAdj : List Nat → List Nat
  | [] => []
  | a :: l => a :: dedupAdjGo a l

/-- fn parse_field_spec of main.rs: split the argument on commas, parse and
0-index every token, fail on an empty result, then sort and dedup. -/
def parse_field_spec (arg : String) : Except FieldSpecError (List Nat) :=
  match parseFieldTokens (splitOnElem ',' arg.data) with
  | .error e => .error e
  | .ok fields =>
    if fields = [] then .error .noFields
    else .ok (dedupAdj (sortAsc fields))

/-- The field specification resolved by get_config: the value of the -f
option, defaulting to the string for column one when the option is absent,
run through parse_field_spec. -/
def get_config_fields (arg : Option String) : Except FieldSpecError (List Nat) :=
  parse_field_spec (arg.getD "1")

/-- The Config builder struct of config.rs. -/
structure Config where
  inputs : List String
  fields : List Nat
  sorted : Bool
  whitespace : Bool
deriving DecidableEq, Repr

/-- Config::new of config.rs: no inputs (stdin), fields = vec![1], unsorted,
tab mode. -/
def Config.new : Config :=
  { inputs := [], fields := [1], sorted := false, whitespace := false }

/-- ASCII bytes of a string literal, for concrete inputs in theorems. -/
def strBytes (s : String) : List Nat := s.data.map Char.toNat

/-- Proof-side description of what the loop does once the kept lines are
known: the sink's possible write failure on one of the kept lines, then the
possible flush failure, then the concatenated output. -/
def sinkResult (sink : OutSink) (kept : List (List Nat)) (wc : Nat) :
    Except RunError (List Nat) :=
  match sink.writeFailsAt with
  | some k =>
    if wc ≤ k ∧ k < wc + kept.length then .error .writeError
    else if sink.flushFails then .error .flushError
    else .ok kept.flatten
  | none =>
    if sink.flushFails then .error .flushError
    else .ok kept.flatten

/-- One kept line in front of a sink result: the write check at the current
count followed by prepending the line to the remaining output. -/
theorem sinkResult_keep (sink : OutSink) (line : List Nat)
    (kept : List (List Nat)) (wc : Nat) :
    (if sink.writeFailsAt = some wc then (.error .writeError : Except RunError (List Nat))
     else (fun out => line ++ out) <$> sinkResult sink kept (wc + 1)) =
    sinkResult sink (line :: kept) wc := by
  cases hw : sink.writeFailsAt with
  | none =>
    simp only [sinkResult, hw]
    cases hf : sink.flushFails <;> simp
  | some k =>
    by_cases hk : k = wc
    · rw [hk] at hw ⊢
      have hcond : wc ≤ wc ∧ wc < wc + (line :: kept).length := by
        refine ⟨Nat.le_refl wc, ?_⟩
        simp only [List.length_cons]
        omega
      simp [sinkResult, hw, hcond]
    · have hne : ¬ ((some k : Option Nat) = some wc) := by
        intro h
        exact hk (Option.some.inj h)
      rw [if_neg hne]
      simp only [sinkResult, hw]
      by_cases hA : wc + 1 ≤ k ∧ k < wc + 1 + kept.length
      · have hB : wc ≤ k ∧ k < wc + (line :: kept).length := by
          simp only [List.length_cons]
          omega
        rw [if_pos hA, if_pos hB]
        rfl
      · have hB : ¬ (wc ≤ k ∧ k < wc + (line :: kept).length) := by
          simp only [List.length_cons]
          omega
        rw [if_neg hA, if_neg hB]
        cases hf : sink.flushFails <;> simp

/-- The run loop is the pure keep decision plus the sink behaviour; in
particular the read-failure flag never influences the result. -/
theorem runLoop_eq_keepLoop (cfg : RunConfig) (sink : OutSink) :
    ∀ (lines : List (List Nat)) (rf : Bool) (seen : List (List Nat))
      (last : Option (List Nat)) (wc : Nat),
    runLoop cfg sink lines rf seen last wc =
      sinkResult sink (keepLoop cfg lines seen last) wc := by
  intro lines
  induction lines with
  | nil =>
    intro rf seen last wc
    simp only [runLoop, keepLoop, sinkResult]
    cases h : sink.writeFailsAt with
    | none => rfl
    | some k =>
      have hcond : ¬ (wc ≤ k ∧ k < wc + ([] : List (List Nat)).length) := by
        simp only [List.length_nil, Nat.add_zero]
        omega
      exact (if_neg hcond).symm
  | cons line rest ih =>
    intro rf seen last wc
    simp only [runLoop, keepLoop]
    by_cases hs : cfg.sorted = true
    · rw [hs]
      cases last with
      | none =>
        show (if sink.writeFailsAt = some wc then (.error .writeError : Except RunError (List Nat))
              else (fun out => line ++ out) <$>
                runLoop cfg sink rest rf seen (some (extractKey cfg line)) (wc + 1)) =
          sinkResult sink (line :: keepLoop cfg rest seen (some (extractKey cfg line))) wc
        rw [ih rf seen (some (extractKey cfg line)) (wc + 1)]
        exact sinkResult_keep sink line _ wc
      | some lastKey =>
        by_cases he : lastKey = extractKey cfg line
        · simp only [if_pos he]
          exact ih rf seen (some lastKey) wc
        · simp only [if_neg he]
          show (if sink.writeFailsAt = some wc then (.error .writeError : Except RunError (List Nat))
                else (fun out => line ++ out) <$>
                  runLoop cfg sink rest rf seen (some (extractKey cfg line)) (wc + 1)) =
            sinkResult sink (line :: keepLoop cfg rest seen (some (extractKey cfg line))) wc
          rw [ih rf seen (some (extractKey cfg line)) (wc + 1)]
          exact sinkResult_keep sink line _ wc
    · rw [Bool.not_eq_true] at hs
      rw [hs]
      by_cases hm : extractKey cfg line ∈ seen
      · simp only [if_pos hm]
        exact ih rf seen last wc
      · simp only [if_neg hm]
        show (if sink.writeFailsAt = some wc then (.error .writeError : Except RunError (List Nat))
              else (fun out => line ++ out) <$>
                runLoop cfg sink rest rf (extractKey cfg line :: seen) last (wc + 1)) =
          sinkResult sink (line :: keepLoop cfg rest (extractKey cfg line :: seen) last) wc
        rw [ih rf (extractKey cfg line :: seen) last (wc + 1)]
        exact sinkResult_keep sink line _ wc

/-- On a failure-free sink the engine returns the concatenated kept lines,
whether or not the stream ends in a read failure. -/
theorem run_clean (cfg : RunConfig) (bs : List Nat) (rf : Bool) :
    run cfg { bytes := bs, readFails := rf } cleanSink = .ok (runPure cfg bs) := by
  unfold run runPure
  rw [runLoop_eq_keepLoop]
  rfl

/-- Reassembling the lines of a stream gives back the stream: the engine
never rewrites the bytes of a line. -/
theorem splitLines_flatten : ∀ bs : List Nat, (splitLines bs).flatten = bs := by
  intro bs
  induction bs with
  | nil => rfl
  | cons b rest ih =>
    simp only [splitLines]
    by_cases hb : b = 10
    · simp [hb, ih]
    · rw [if_neg hb]
      cases h : splitLines rest with
      | nil =>
        rw [h] at ih
        simp only [List.flatten_nil] at ih
        simp [← ih]
      | cons l ls =>
        rw [h] at ih
        simp only [List.flatten_cons] at ih ⊢
        simp [ih]

/-- The first-occurrence filter keeps a subsequence of its input. -/
theorem specFirstOccurrence_sublist (key : List Nat → List Nat) :
    ∀ (ls earlier : List (List Nat)),
    List.Sublist (specFirstOccurrence key earlier ls) ls := by
  intro ls
  induction ls with
  | nil =>
    intro earlier
    simp [specFirstOccurrence]
  | cons l rest ih =>
    intro earlier
    simp only [specFirstOccurrence]
    by_cases hm : key l ∈ earlier
    · rw [if_pos hm]
      exact (ih (earlier ++ [key l])).cons l
    · rw [if_neg hm]
      exact (ih (earlier ++ [key l])).cons₂ l

/-- In unsorted mode the keep decision is exactly the spec's first-occurrence
filter, provided the seen set holds the same keys as the list of keys of the
strictly earlier records. -/
theorem keepLoop_unsorted_eq_spec (cfg : RunConfig) (h : cfg.sorted = false) :
    ∀ (lines seen earlier : List (List Nat)) (last : Option (List Nat)),
    (∀ k, k ∈ seen ↔ k ∈ earlier) →
    keepLoop cfg lines seen last = specFirstOccurrence (extractKey cfg) earlier lines := by
  intro lines
  induction lines with
  | nil =>
    intro seen earlier last hmem
    simp [keepLoop, specFirstOccurrence]
  | cons line rest ih =>
    intro seen earlier last hmem
    simp only [keepLoop, specFirstOccurrence, h]
    rw [if_neg (by simp)]
    by_cases hm : extractKey cfg line ∈ earlier
    · rw [if_pos ((hmem _).mpr hm), if_pos hm]
      refine ih seen (earlier ++ [extractKey cfg line]) last ?_
      intro k
      rw [hmem k]
      simp only [List.mem_append, List.mem_singleton]
      constructor
      · exact fun hk => Or.inl hk
      · rintro (hk | rfl)
        · exact hk
        · exact hm
    · rw [if_neg (fun hk => hm ((hmem _).mp hk)), if_neg hm]
      refine congrArg (fun t => line :: t) ?_
      refine ih (extractKey cfg line :: seen) (earlier ++ [extractKey cfg line]) last ?_
      intro k
      simp only [List.mem_cons, List.mem_append, List.mem_singleton, hmem k]
      tauto

/-- C1: for every input byte stream and key function fixed by the
configuration, unsorted mode emits exactly the records whose key has not
appeared in any strictly earlier record, in original order; the output is
the concatenation of a subsequence of the source lines, and the source
lines concatenate back to the input, so every kept line is byte-for-byte
its source form. -/
theorem unsorted_is_first_occurrence_filter (cfg : RunConfig) (bs : List Nat)
    (h : cfg.sorted = false) :
    run cfg { bytes := bs, readFails := false } cleanSink =
      .ok (specFirstOccurrence (extractKey cfg) [] (splitLines bs)).flatten ∧
    List.Sublist (specFirstOccurrence (extractKey cfg) [] (splitLines bs)) (splitLines bs) ∧
    (splitLines bs).flatten = bs := by
  refine ⟨?_, specFirstOccurrence_sublist _ _ _, splitLines_flatten bs⟩
  rw [run_clean]
  unfold runPure
  rw [keepLoop_unsorted_eq_spec cfg h (splitLines bs) [] [] none (fun k => Iff.rfl)]

/-- Witness for the C1 theorem at a concrete unsorted configuration and
input (three lines, the second a key duplicate of the first). -/
theorem unsorted_is_first_occurrence_filter_witness :
    (run { fields := [0], sorted := false, whitespace := false }
        { bytes := [97, 10, 97, 10, 98, 10], readFails := false } cleanSink =
      .ok (specFirstOccurrence
            (extractKey { fields := [0], sorted := false, whitespace := false }) []
            (splitLines [97, 10, 97, 10, 98, 10])).flatten ∧
    List.Sublist
      (specFirstOccurrence
        (extractKey { fields := [0], sorted := false, whitespace := false }) []
        (splitLines [97, 10, 97, 10, 98, 10]))
      (splitLines [97, 10, 97, 10, 98, 10]) ∧
    (splitLines [97, 10, 97, 10, 98, 10]).flatten = [97, 10, 97, 10, 98, 10]) ∧
    run { fields := [0], sorted := false, whitespace := false }
        { bytes := [97, 10, 97, 10, 98, 10], readFails := false } cleanSink =
      .ok [97, 10, 98, 10] :=
  ⟨unsorted_is_first_occurrence_filter _ _ rfl, rfl⟩

/-- The head of a grouped key list: whenever the first key occurs again
later, it is the immediately following key; and the tail is grouped. -/
theorem grouped_cons_iff (k : List Nat) (ks : List (List Nat)) :
    Grouped (k :: ks) ↔ ((k ∈ ks → ks.head? = some k) ∧ Grouped ks) := by
  show groupedB (k :: ks) = true ↔ _
  rw [groupedB, Bool.and_eq_true, Bool.or_eq_true, Bool.not_eq_true']
  constructor
  · rintro ⟨h1, h2⟩
    refine ⟨?_, h2⟩
    intro hmem
    rcases h1 with hc | hh
    · exact absurd hmem (by simpa using hc)
    · exact beq_iff_eq.mp hh
  · rintro ⟨h1, h2⟩
    refine ⟨?_, h2⟩
    by_cases hmem : k ∈ ks
    · exact Or.inr (beq_iff_eq.mpr (h1 hmem))
    · exact Or.inl (by simpa using hmem)

/-- Sorted mode never consults the seen set. -/
theorem keepLoop_sorted_seen_irrel (cfg : RunConfig) (hs : cfg.sorted = true) :
    ∀ (lines seen seen2 : List (List Nat)) (last : Option (List Nat)),
    keepLoop cfg lines seen last = keepLoop cfg lines seen2 last := by
  intro lines
  induction lines with
  | nil => intro seen seen2 last; rfl
  | cons line rest ih =>
    intro seen seen2 last
    simp only [keepLoop, hs, if_true]
    cases last with
    | none => rw [ih seen seen2 (some (extractKey cfg line))]
    | some lastKey =>
      by_cases he : lastKey = extractKey cfg line
      · simp only [if_pos he]
        exact ih seen seen2 (some lastKey)
      · simp only [if_neg he]
        rw [ih seen seen2 (some (extractKey cfg line))]

/-- Unsorted mode never consults the remembered previous key. -/
theorem keepLoop_unsorted_last_irrel (cfg : RunConfig) (hs : cfg.sorted = false) :
    ∀ (lines seen : List (List Nat)) (last last2 : Option (List Nat)),
    keepLoop cfg lines seen last = keepLoop cfg lines seen last2 := by
  intro lines
  induction lines with
  | nil => intro seen last last2; rfl
  | cons line rest ih =>
    intro seen last last2
    simp only [keepLoop, hs, Bool.false_eq_true, if_false]
    by_cases hm : extractKey cfg line ∈ seen
    · simp only [if_pos hm]
      exact ih seen last last2
    · simp only [if_neg hm]
      rw [ih (extractKey cfg line :: seen) last last2]

/-- One sorted-mode step of the keep decision (the sorted flag does not
enter key extraction, so the key is written with the unsorted config). -/
theorem keepLoop_sorted_cons (f : List Nat) (w : Bool) (line : List Nat)
    (rest seen : List (List Nat)) (last : Option (List Nat)) :
    keepLoop ⟨f, true, w⟩ (line :: rest) seen last =
      (match last with
       | some lastKey =>
         if lastKey = extractKey ⟨f, false, w⟩ line then keepLoop ⟨f, true, w⟩ rest seen last
         else line :: keepLoop ⟨f, true, w⟩ rest seen (some (extractKey ⟨f, false, w⟩ line))
       | none => line :: keepLoop ⟨f, true, w⟩ rest seen (some (extractKey ⟨f, false, w⟩ line))) :=
  rfl

/-- One unsorted-mode step of the keep decision. -/
theorem keepLoop_unsorted_cons (f : List Nat) (w : Bool) (line : List Nat)
    (rest seen : List (List Nat)) (last : Option (List Nat)) :
    keepLoop ⟨f, false, w⟩ (line :: rest) seen last =
      (if extractKey ⟨f, false, w⟩ line ∈ seen then keepLoop ⟨f, false, w⟩ rest seen last
       else line :: keepLoop ⟨f, false, w⟩ rest (extractKey ⟨f, false, w⟩ line :: seen) last) :=
  rfl

/-- The mode-agreement invariant: when equal keys are contiguous in the
remaining lines, the seen set holds the keys of the already-processed
records, and any remaining record whose key is already seen is still inside
the current contiguous group (so its key is the remembered key and the key
of the next record), the sorted-mode and unsorted-mode loops keep exactly
the same lines. -/
theorem keepLoop_modes (f : List Nat) (w : Bool) :
    ∀ (lines seen : List (List Nat)) (last : Option (List Nat)),
    Grouped (lines.map (extractKey ⟨f, false, w⟩)) →
    (∀ k, last = some k → k ∈ seen) →
    (∀ l ∈ lines, extractKey ⟨f, false, w⟩ l ∈ seen →
       last = some (extractKey ⟨f, false, w⟩ l) ∧
       (lines.map (extractKey ⟨f, false, w⟩)).head? = some (extractKey ⟨f, false, w⟩ l)) →
    keepLoop ⟨f, true, w⟩ lines seen last = keepLoop ⟨f, false, w⟩ lines seen last := by
  intro lines
  induction lines with
  | nil =>
    intro seen last _ _ _
    rfl
  | cons line rest ih =>
    intro seen last hg h2 h3
    simp only [List.map_cons] at hg
    rw [grouped_cons_iff] at hg
    obtain ⟨hg1, hg2⟩ := hg
    rw [keepLoop_sorted_cons, keepLoop_unsorted_cons]
    by_cases hm : extractKey ⟨f, false, w⟩ line ∈ seen
    · obtain ⟨hlast, -⟩ := h3 line (List.mem_cons_self line rest) hm
      rw [if_pos hm]
      have hrec : keepLoop ⟨f, true, w⟩ rest seen (some (extractKey ⟨f, false, w⟩ line)) =
          keepLoop ⟨f, false, w⟩ rest seen (some (extractKey ⟨f, false, w⟩ line)) := by
        refine ih seen (some (extractKey ⟨f, false, w⟩ line)) hg2 ?_ ?_
        · intro k hk
          rw [← Option.some.inj hk]
          exact hm
        · intro l hl hml
          obtain ⟨-, hhead⟩ := h3 l (List.mem_cons_of_mem line hl) hml
          simp only [List.map_cons, List.head?_cons] at hhead
          have hkeq : extractKey ⟨f, false, w⟩ l = extractKey ⟨f, false, w⟩ line :=
            (Option.some.inj hhead).symm
          refine ⟨by rw [hkeq], ?_⟩
          rw [hkeq]
          exact hg1 (hkeq ▸ List.mem_map_of_mem (extractKey ⟨f, false, w⟩) hl)
      cases last with
      | none => exact absurd hlast (fun h => nomatch h)
      | some k =>
        have hk : k = extractKey ⟨f, false, w⟩ line := Option.some.inj hlast
        show (if k = extractKey ⟨f, false, w⟩ line then
                keepLoop ⟨f, true, w⟩ rest seen (some k)
              else line :: keepLoop ⟨f, true, w⟩ rest seen (some (extractKey ⟨f, false, w⟩ line))) =
          keepLoop ⟨f, false, w⟩ rest seen (some k)
        rw [if_pos hk, hk]
        exact hrec
    · rw [if_neg hm]
      have hstep : keepLoop ⟨f, true, w⟩ rest seen (some (extractKey ⟨f, false, w⟩ line)) =
          keepLoop ⟨f, false, w⟩ rest (extractKey ⟨f, false, w⟩ line :: seen) last := by
        rw [keepLoop_sorted_seen_irrel ⟨f, true, w⟩ rfl rest seen
          (extractKey ⟨f, false, w⟩ line :: seen) (some (extractKey ⟨f, false, w⟩ line))]
        rw [← keepLoop_unsorted_last_irrel ⟨f, false, w⟩ rfl rest
          (extractKey ⟨f, false, w⟩ line :: seen) (some (extractKey ⟨f, false, w⟩ line)) last]
        refine ih (extractKey ⟨f, false, w⟩ line :: seen)
          (some (extractKey ⟨f, false, w⟩ line)) hg2 ?_ ?_
        · intro k hk
          rw [← Option.some.inj hk]
          exact List.mem_cons_self _ _
        · intro l hl hml
          have hkeq : extractKey ⟨f, false, w⟩ l = extractKey ⟨f, false, w⟩ line := by
            rcases List.mem_cons.mp hml with he | hin
            · exact he
            · obtain ⟨-, hhead⟩ := h3 l (List.mem_cons_of_mem line hl) hin
              simp only [List.map_cons, List.head?_cons] at hhead
              exact (Option.some.inj hhead).symm
          refine ⟨by rw [hkeq], ?_⟩
          rw [hkeq]
          exact hg1 (hkeq ▸ List.mem_map_of_mem (extractKey ⟨f, false, w⟩) hl)
      cases last with
      | none => exact congrArg (fun t => line :: t) hstep
      | some k =>
        have hne : ¬ k = extractKey ⟨f, false, w⟩ line := by
          intro he
          rw [he] at h2
          exact hm (h2 (extractKey ⟨f, false, w⟩ line) rfl)
        show (if k = extractKey ⟨f, false, w⟩ line then
                keepLoop ⟨f, true, w⟩ rest seen (some k)
              else line :: keepLoop ⟨f, true, w⟩ rest seen (some (extractKey ⟨f, false, w⟩ line))) =
          line :: keepLoop ⟨f, false, w⟩ rest (extractKey ⟨f, false, w⟩ line :: seen) (some k)
        rw [if_neg hne]
        exact congrArg (fun t => line :: t) hstep

/-- C2: whenever equal-keyed records are contiguous in the input, sorted
mode (adjacent-key comparison) produces exactly the same output as unsorted
mode (full key-history set) on the same input and field configuration. -/
theorem sorted_mode_eq_unsorted_mode (f : List Nat) (w : Bool) (bs : List Nat)
    (hg : Grouped ((splitLines bs).map (extractKey ⟨f, false, w⟩))) :
    runPure ⟨f, true, w⟩ bs = runPure ⟨f, false, w⟩ bs := by
  unfold runPure
  rw [keepLoop_modes f w (splitLines bs) [] none hg (fun k h => nomatch h)
    (fun l hl hmem => absurd hmem (List.not_mem_nil _))]

/-- Witness for the C2 theorem: a grouped three-line input where both modes
drop the duplicate middle line. -/
theorem sorted_mode_eq_unsorted_mode_witness :
    runPure ⟨[0], true, false⟩ [97, 10, 97, 10, 98, 10] =
      runPure ⟨[0], false, false⟩ [97, 10, 97, 10, 98, 10] ∧
    runPure ⟨[0], false, false⟩ [97, 10, 97, 10, 98, 10] = [97, 10, 98, 10] :=
  ⟨sorted_mode_eq_unsorted_mode [0] false _ (by decide), rfl⟩

/-- The kept lines form a subsequence of the input lines. -/
theorem keepLoop_sublist (cfg : RunConfig) :
    ∀ (lines seen : List (List Nat)) (last : Option (List Nat)),
    List.Sublist (keepLoop cfg lines seen last) lines := by
  intro lines
  induction lines with
  | nil =>
    intro seen last
    exact List.Sublist.refl []
  | cons line rest ih =>
    intro seen last
    by_cases hs : cfg.sorted = true
    · simp only [keepLoop, hs, if_true]
      cases last with
      | none => exact (ih seen (some (extractKey cfg line))).cons₂ line
      | some k =>
        by_cases he : k = extractKey cfg line
        · simp only [if_pos he]
          exact (ih seen (some k)).cons line
        · simp only [if_neg he]
          exact (ih seen (some (extractKey cfg line))).cons₂ line
    · rw [Bool.not_eq_true] at hs
      simp only [keepLoop, hs, Bool.false_eq_true, if_false]
      by_cases hm : extractKey cfg line ∈ seen
      · simp only [if_pos hm]
        exact (ih seen last).cons line
      · simp only [if_neg hm]
        exact (ih (extractKey cfg line :: seen) last).cons₂ line

/-- Every line produced by the line splitter is nonempty and contains the
newline byte at most as its final byte. -/
theorem splitLines_wf1 :
    ∀ (bs : List Nat), ∀ l ∈ splitLines bs, l ≠ [] ∧ 10 ∉ l.dropLast := by
  intro bs
  induction bs with
  | nil =>
    intro l hl
    exact absurd hl (List.not_mem_nil l)
  | cons b rest ih =>
    intro l hl
    simp only [splitLines] at hl
    by_cases hb : b = 10
    · rw [if_pos hb] at hl
      rcases List.mem_cons.mp hl with rfl | hin
      · exact ⟨List.cons_ne_nil 10 [], List.not_mem_nil 10⟩
      · exact ih l hin
    · rw [if_neg hb] at hl
      cases h : splitLines rest with
      | nil =>
        rw [h] at hl
        rcases List.mem_cons.mp hl with rfl | hin
        · exact ⟨List.cons_ne_nil b [], List.not_mem_nil 10⟩
        · exact absurd hin (List.not_mem_nil l)
      | cons l0 ls =>
        rw [h] at hl
        rcases List.mem_cons.mp hl with rfl | hin
        · refine ⟨List.cons_ne_nil b l0, ?_⟩
          cases hl0 : l0 with
          | nil => exact List.not_mem_nil 10
          | cons c cs =>
            rw [List.dropLast_cons₂]
            intro hmem
            rcases List.mem_cons.mp hmem with h10 | hin2
            · exact hb h10.symm
            · have := (ih l0 (h ▸ List.mem_cons_self l0 ls)).2
              rw [hl0] at this
              exact this hin2
        · exact ih l (h ▸ List.mem_cons_of_mem l0 hin)

/-- Every line except possibly the final one ends in the newline byte. -/
theorem splitLines_wf2 :
    ∀ (bs : List Nat), ∀ l ∈ (splitLines bs).dropLast, l.getLast? = some 10 := by
  intro bs
  induction bs with
  | nil =>
    intro l hl
    exact absurd hl (List.not_mem_nil l)
  | cons b rest ih =>
    intro l hl
    simp only [splitLines] at hl
    by_cases hb : b = 10
    · rw [if_pos hb] at hl
      cases h : splitLines rest with
      | nil =>
        rw [h] at hl
        exact absurd hl (List.not_mem_nil l)
      | cons m ms =>
        rw [h, List.dropLast_cons₂] at hl
        rcases List.mem_cons.mp hl with rfl | hin
        · rfl
        · exact ih l (h ▸ hin)
    · rw [if_neg hb] at hl
      cases h : splitLines rest with
      | nil =>
        rw [h] at hl
        exact absurd hl (List.not_mem_nil l)
      | cons l0 ls =>
        rw [h] at hl
        cases hls : ls with
        | nil =>
          rw [hls] at hl
          exact absurd hl (List.not_mem_nil l)
        | cons m ms =>
          rw [hls, List.dropLast_cons₂] at hl
          rcases List.mem_cons.mp hl with rfl | hin
          · have hl0 : l0.getLast? = some 10 := by
              refine ih l0 ?_
              rw [h, hls, List.dropLast_cons₂]
              exact List.mem_cons_self l0 _
            cases hl00 : l0 with
            | nil =>
              rw [hl00] at hl0
              exact absurd hl0 (by simp)
            | cons c cs =>
              rw [List.getLast?_cons_cons]
              rw [hl00] at hl0
              exact hl0
          · refine ih l ?_
            rw [h, hls, List.dropLast_cons₂]
            exact List.mem_cons_of_mem l0 (hls ▸ hin)

/-- A member of the leading part of a subsequence is a member of the leading
part of the full list. -/
theorem sublist_dropLast_subset {α : Type} {K L : List α} (h : List.Sublist K L) :
    ∀ a ∈ K.dropLast, a ∈ L.dropLast := by
  induction h with
  | slnil =>
    intro a ha
    exact absurd ha (List.not_mem_nil a)
  | @cons K L b h ih =>
    intro a ha
    have hin := ih a ha
    cases hL : L with
    | nil =>
      rw [hL] at hin
      exact absurd hin (List.not_mem_nil a)
    | cons m ms =>
      rw [hL] at hin
      rw [List.dropLast_cons₂]
      exact List.mem_cons_of_mem b hin
  | @cons₂ K L b h ih =>
    intro a ha
    cases hK : K with
    | nil =>
      rw [hK] at ha
      exact absurd ha (by simp)
    | cons k ks =>
      cases hL : L with
      | nil =>
        rw [hK, hL] at h
        exact absurd (List.sublist_nil.mp h) (List.cons_ne_nil k ks)
      | cons m ms =>
        rw [hK, List.dropLast_cons₂] at ha
        rw [List.dropLast_cons₂]
        rcases List.mem_cons.mp ha with rfl | hin
        · exact List.mem_cons_self a _
        · refine List.mem_cons_of_mem b ?_
          have := ih a (hK ▸ hin)
          rw [hL] at this
          exact this

/-- One unfolding step of the line splitter at a non-newline byte. -/
theorem splitLines_cons_ne10 (b : Nat) (bs : List Nat) (hb : ¬ b = 10) :
    splitLines (b :: bs) =
      (match splitLines bs with
       | l :: ls => (b :: l) :: ls
       | [] => [[b]]) := by
  simp only [splitLines, if_neg hb]

/-- A nonempty chunk with no interior newline is read back as one line. -/
theorem splitLines_single :
    ∀ (l : List Nat), l ≠ [] → 10 ∉ l.dropLast → splitLines l = [l] := by
  intro l
  induction l with
  | nil =>
    intro h _
    exact absurd rfl h
  | cons b rest ih =>
    intro _ hnl
    cases hr : rest with
    | nil =>
      by_cases hb : b = 10
      · rw [hb]
        rfl
      · rw [splitLines_cons_ne10 b [] hb]
        rfl
    | cons c cs =>
      rw [hr, List.dropLast_cons₂] at hnl
      have hb : ¬ b = 10 := fun he => hnl (by rw [he]; exact List.mem_cons_self 10 _)
      have htail : 10 ∉ (c :: cs).dropLast := fun hm => hnl (List.mem_cons_of_mem b hm)
      have hrec : splitLines (c :: cs) = [c :: cs] := by
        rw [← hr]
        exact ih (hr ▸ List.cons_ne_nil c cs) (hr ▸ htail)
      rw [splitLines_cons_ne10 b (c :: cs) hb, hrec]

/-- Reading a terminated chunk off the front of a stream yields that chunk
as the first line. -/
theorem splitLines_append_term :
    ∀ (l : List Nat), 10 ∉ l → ∀ (rest : List Nat),
    splitLines (l ++ 10 :: rest) = (l ++ [10]) :: splitLines rest := by
  intro l
  induction l with
  | nil =>
    intro _ rest
    simp only [List.nil_append]
    rfl
  | cons b bs ih =>
    intro hnl rest
    have hb : ¬ b = 10 := fun he => hnl (by rw [he]; exact List.mem_cons_self 10 bs)
    have htail : 10 ∉ bs := fun hm => hnl (List.mem_cons_of_mem b hm)
    rw [List.cons_append, splitLines_cons_ne10 b (bs ++ 10 :: rest) hb, ih htail rest]
    rfl

/-- Leading part of a cons with a nonempty tail. -/
theorem dropLast_cons_ne {α : Type} (a : α) (l : List α) (h : l ≠ []) :
    (a :: l).dropLast = a :: l.dropLast := by
  cases l with
  | nil => exact absurd rfl h
  | cons b bs => exact List.dropLast_cons₂

/-- Splitting the concatenation of well-formed lines (each nonempty with no
interior newline, all but the last terminated) recovers exactly those
lines. -/
theorem splitLines_flatten_of_wf :
    ∀ (K : List (List Nat)),
    (∀ l ∈ K, l ≠ [] ∧ 10 ∉ l.dropLast) →
    (∀ l ∈ K.dropLast, l.getLast? = some 10) →
    splitLines K.flatten = K := by
  intro K
  induction K with
  | nil =>
    intro _ _
    rfl
  | cons l K1 ih =>
    intro h1 h2
    obtain ⟨hne, hnl⟩ := h1 l (List.mem_cons_self l K1)
    by_cases hK1 : K1 = []
    · rw [hK1]
      simp only [List.flatten_cons, List.flatten_nil, List.append_nil]
      exact splitLines_single l hne hnl
    · have hlast : l.getLast? = some 10 := by
        refine h2 l ?_
        rw [dropLast_cons_ne l K1 hK1]
        exact List.mem_cons_self l _
      have hdecomp : l.dropLast ++ [10] = l :=
        List.dropLast_append_getLast? 10 hlast
      have hflat : l ++ K1.flatten = l.dropLast ++ 10 :: K1.flatten := by
        calc l ++ K1.flatten = (l.dropLast ++ [10]) ++ K1.flatten := by rw [hdecomp]
        _ = l.dropLast ++ 10 :: K1.flatten := by simp [List.append_assoc]
      rw [List.flatten_cons, hflat,
        splitLines_append_term l.dropLast hnl K1.flatten, hdecomp]
      rw [ih (fun x hx => h1 x (List.mem_cons_of_mem l hx))
        (fun x hx => h2 x (by
          rw [dropLast_cons_ne l K1 hK1]
          exact List.mem_cons_of_mem l hx))]

/-- In unsorted mode the kept lines have pairwise distinct keys, none of
which was already in the seen set. -/
theorem keepLoop_unsorted_nodup (cfg : RunConfig) (h : cfg.sorted = false) :
    ∀ (lines seen : List (List Nat)) (last : Option (List Nat)),
    ((keepLoop cfg lines seen last).map (extractKey cfg)).Nodup ∧
    (∀ k ∈ (keepLoop cfg lines seen last).map (extractKey cfg), k ∉ seen) := by
  intro lines
  induction lines with
  | nil =>
    intro seen last
    exact ⟨List.nodup_nil, fun k hk => absurd hk (List.not_mem_nil k)⟩
  | cons line rest ih =>
    intro seen last
    simp only [keepLoop, h, Bool.false_eq_true, if_false]
    by_cases hm : extractKey cfg line ∈ seen
    · simp only [if_pos hm]
      exact ih seen last
    · simp only [if_neg hm]
      obtain ⟨nd, hout⟩ := ih (extractKey cfg line :: seen) last
      simp only [List.map_cons]
      constructor
      · refine List.Nodup.cons ?_ nd
        intro hin
        exact hout (extractKey cfg line) hin (List.mem_cons_self _ _)
      · intro k hk
        rcases List.mem_cons.mp hk with rfl | hin
        · exact hm
        · intro hks
          exact hout k hin (List.mem_cons_of_mem _ hks)

/-- In unsorted mode, a list of lines whose keys are pairwise distinct and
absent from the seen set passes through the keep decision unchanged. -/
theorem keepLoop_unsorted_fix (cfg : RunConfig) (h : cfg.sorted = false) :
    ∀ (lines seen : List (List Nat)) (last : Option (List Nat)),
    (lines.map (extractKey cfg)).Nodup →
    (∀ k ∈ lines.map (extractKey cfg), k ∉ seen) →
    keepLoop cfg lines seen last = lines := by
  intro lines
  induction lines with
  | nil =>
    intro seen last _ _
    rfl
  | cons line rest ih =>
    intro seen last hnd hout
    simp only [List.map_cons] at hnd hout
    have hm : extractKey cfg line ∉ seen :=
      hout (extractKey cfg line) (List.mem_cons_self _ _)
    simp only [keepLoop, h, Bool.false_eq_true, if_false, if_neg hm]
    refine congrArg (fun t => line :: t) ?_
    refine ih (extractKey cfg line :: seen) last (List.Nodup.of_cons hnd) ?_
    intro k hk
    intro hks
    rcases List.mem_cons.mp hks with he | hin
    · rw [he] at hk
      exact (List.nodup_cons.mp hnd).1 hk
    · exact hout k (List.mem_cons_of_mem _ hk) hin

/-- In sorted mode the kept lines have pairwise distinct adjacent keys, and
the first kept line's key differs from the remembered previous key. -/
theorem keepLoop_sorted_chain (cfg : RunConfig) (h : cfg.sorted = true) :
    ∀ (lines seen : List (List Nat)) (last : Option (List Nat)),
    List.Chain' (fun a b => extractKey cfg a ≠ extractKey cfg b)
      (keepLoop cfg lines seen last) ∧
    (∀ k l, last = some k → (keepLoop cfg lines seen last).head? = some l →
      extractKey cfg l ≠ k) := by
  intro lines
  induction lines with
  | nil =>
    intro seen last
    exact ⟨List.chain'_nil, fun k l _ hl => absurd hl (by simp [keepLoop])⟩
  | cons line rest ih =>
    intro seen last
    simp only [keepLoop, h, if_true]
    cases last with
    | none =>
      obtain ⟨hch, hhd⟩ := ih seen (some (extractKey cfg line))
      constructor
      · rw [List.chain'_cons']
        refine ⟨?_, hch⟩
        intro y hy
        intro hc
        exact hhd (extractKey cfg line) y rfl (Option.mem_def.mp hy) hc.symm
      · intro k l hk
        exact absurd hk (fun he => nomatch he)
    | some k0 =>
      by_cases he : k0 = extractKey cfg line
      · simp only [if_pos he]
        obtain ⟨hch, hhd⟩ := ih seen (some k0)
        refine ⟨hch, ?_⟩
        intro k l hk hl
        exact hhd k l hk hl
      · simp only [if_neg he]
        obtain ⟨hch, hhd⟩ := ih seen (some (extractKey cfg line))
        constructor
        · rw [List.chain'_cons']
          refine ⟨?_, hch⟩
          intro y hy
          intro hcontr
          exact hhd (extractKey cfg line) y rfl (Option.mem_def.mp hy) hcontr.symm
        · intro k l hk hl
          rw [Option.some.inj hk] at he
          rw [List.head?_cons] at hl
          rw [← Option.some.inj hl]
          exact fun hc => he hc.symm

/-- In sorted mode, a list of lines with pairwise distinct adjacent keys and
a first key different from the remembered one passes through the keep
decision unchanged. -/
theorem keepLoop_sorted_fix (cfg : RunConfig) (h : cfg.sorted = true) :
    ∀ (lines seen : List (List Nat)) (last : Option (List Nat)),
    List.Chain' (fun a b => extractKey cfg a ≠ extractKey cfg b) lines →
    (∀ k l, last = some k → lines.head? = some l → extractKey cfg l ≠ k) →
    keepLoop cfg lines seen last = lines := by
  intro lines
  induction lines with
  | nil =>
    intro seen last _ _
    rfl
  | cons line rest ih =>
    intro seen last hch hhd
    rw [List.chain'_cons'] at hch
    obtain ⟨hrel, hch'⟩ := hch
    have hrec : keepLoop cfg rest seen (some (extractKey cfg line)) = rest := by
      refine ih seen (some (extractKey cfg line)) hch' ?_
      intro k l hk hl
      rw [← Option.some.inj hk]
      intro hc
      exact hrel l (Option.mem_def.mpr hl) hc.symm
    simp only [keepLoop, h, if_true]
    cases last with
    | none =>
      rw [hrec]
    | some k0 =>
      have hne : ¬ k0 = extractKey cfg line := by
        intro he
        exact hhd k0 line rfl List.head?_cons he.symm
      simp only [if_neg hne]
      rw [hrec]

/-- The pure engine run is idempotent: a second pass over its own output,
with the same configuration, keeps every line. -/
theorem runPure_idempotent (cfg : RunConfig) (bs : List Nat) :
    runPure cfg (runPure cfg bs) = runPure cfg bs := by
  unfold runPure
  have hsub : List.Sublist (keepLoop cfg (splitLines bs) [] none) (splitLines bs) :=
    keepLoop_sublist cfg (splitLines bs) [] none
  have hwf1 : ∀ l ∈ keepLoop cfg (splitLines bs) [] none, l ≠ [] ∧ 10 ∉ l.dropLast :=
    fun l hl => splitLines_wf1 bs l (hsub.subset hl)
  have hwf2 : ∀ l ∈ (keepLoop cfg (splitLines bs) [] none).dropLast, l.getLast? = some 10 :=
    fun l hl => splitLines_wf2 bs l (sublist_dropLast_subset hsub l hl)
  rw [splitLines_flatten_of_wf (keepLoop cfg (splitLines bs) [] none) hwf1 hwf2]
  by_cases hs : cfg.sorted = true
  · obtain ⟨hch, -⟩ := keepLoop_sorted_chain cfg hs (splitLines bs) [] none
    rw [keepLoop_sorted_fix cfg hs (keepLoop cfg (splitLines bs) [] none) [] none hch
      (fun k l hk _ => absurd hk (fun he => nomatch he))]
  · rw [Bool.not_eq_true] at hs
    obtain ⟨hnd, -⟩ := keepLoop_unsorted_nodup cfg hs (splitLines bs) [] none
    rw [keepLoop_unsorted_fix cfg hs (keepLoop cfg (splitLines bs) [] none) [] none hnd
      (fun k _ hk => absurd hk (List.not_mem_nil k))]

/-- C3: running the engine again on its own output, with the same
configuration and mode, returns that output unchanged - no further records
are dropped on the second run. -/
theorem run_idempotent (cfg : RunConfig) (bs out : List Nat)
    (h : run cfg { bytes := bs, readFails := false } cleanSink = .ok out) :
    run cfg { bytes := out, readFails := false } cleanSink = .ok out := by
  rw [run_clean] at h
  have hout : out = runPure cfg bs := (Except.ok.inj h).symm
  rw [hout, run_clean, runPure_idempotent]

/-- Witness for the C3 theorem: a duplicate pair collapses to one line, and
rerunning on that output keeps it. -/
theorem run_idempotent_witness :
    run RunConfig.default { bytes := [97, 10, 97, 10], readFails := false } cleanSink =
      .ok [97, 10] ∧
    run RunConfig.default { bytes := [97, 10], readFails := false } cleanSink =
      .ok [97, 10] :=
  ⟨rfl, run_idempotent RunConfig.default [97, 10, 97, 10] [97, 10] rfl⟩

/-- Membership in an insertion step. -/
theorem insertSorted_mem (x : Nat) :
    ∀ (l : List Nat) (y : Nat), y ∈ insertSorted x l ↔ y = x ∨ y ∈ l := by
  intro l
  induction l with
  | nil =>
    intro y
    simp [insertSorted]
  | cons z l ih =>
    intro y
    simp only [insertSorted]
    by_cases hle : x ≤ z
    · rw [if_pos hle]
      simp [List.mem_cons]
    · rw [if_neg hle]
      simp only [List.mem_cons, ih y]
      tauto

/-- Insertion preserves sortedness. -/
theorem insertSorted_pairwise (x : Nat) :
    ∀ (l : List Nat), List.Pairwise (· ≤ ·) l →
    List.Pairwise (· ≤ ·) (insertSorted x l) := by
  intro l
  induction l with
  | nil =>
    intro _
    simp [insertSorted]
  | cons z l ih =>
    intro hp
    rw [List.pairwise_cons] at hp
    obtain ⟨hz, hp'⟩ := hp
    simp only [insertSorted]
    by_cases hle : x ≤ z
    · rw [if_pos hle]
      rw [List.pairwise_cons]
      refine ⟨?_, List.pairwise_cons.mpr ⟨hz, hp'⟩⟩
      intro y hy
      rcases List.mem_cons.mp hy with rfl | hin
      · exact hle
      · exact Nat.le_trans hle (hz y hin)
    · rw [if_neg hle]
      rw [List.pairwise_cons]
      refine ⟨?_, ih hp'⟩
      intro y hy
      rcases (insertSorted_mem x l y).mp hy with rfl | hin
      · exact Nat.le_of_not_le hle
      · exact hz y hin

/-- The sort model permutes membership. -/
theorem sortAsc_mem : ∀ (l : List Nat) (y : Nat), y ∈ sortAsc l ↔ y ∈ l := by
  intro l
  induction l with
  | nil =>
    intro y
    exact Iff.rfl
  | cons x l ih =>
    intro y
    simp only [sortAsc, insertSorted_mem, List.mem_cons, ih y]

/-- The sort model sorts. -/
theorem sortAsc_pairwise : ∀ (l : List Nat), List.Pairwise (· ≤ ·) (sortAsc l) := by
  intro l
  induction l with
  | nil => exact List.Pairwise.nil
  | cons x l ih => exact insertSorted_pairwise x (sortAsc l) ih

/-- Membership after adjacent dedup of a sorted tail: exactly the elements
other than the already-kept previous one. -/
theorem dedupAdjGo_mem :
    ∀ (l : List Nat) (p : Nat), (∀ x ∈ l, p ≤ x) → List.Pairwise (· ≤ ·) l →
    ∀ x, x ∈ dedupAdjGo p l ↔ (x ∈ l ∧ x ≠ p) := by
  intro l
  induction l with
  | nil =>
    intro _ _ _ x
    simp [dedupAdjGo]
  | cons b l ih =>
    intro p hp hl x
    rw [List.pairwise_cons] at hl
    obtain ⟨hb, hl'⟩ := hl
    simp only [dedupAdjGo]
    by_cases he : b = p
    · rw [if_pos he]
      rw [ih p (fun y hy => hp y (List.mem_cons_of_mem b hy)) hl' x]
      simp only [List.mem_cons]
      constructor
      · rintro ⟨hin, hne⟩
        exact ⟨Or.inr hin, hne⟩
      · rintro ⟨hor, hne⟩
        rcases hor with rfl | hin
        · exact absurd he (by intro h2; exact hne h2)
        · exact ⟨hin, hne⟩
    · rw [if_neg he]
      have hpb : p < b :=
        Nat.lt_of_le_of_ne (hp b (List.mem_cons_self b l)) (fun h => he h.symm)
      rw [List.mem_cons, ih b hb hl' x]
      simp only [List.mem_cons]
      constructor
      · rintro (rfl | ⟨hin, hne⟩)
        · exact ⟨Or.inl rfl, Nat.ne_of_gt hpb⟩
        · refine ⟨Or.inr hin, ?_⟩
          have := hb x hin
          omega
      · rintro ⟨hor, hne⟩
        rcases hor with rfl | hin
        · exact Or.inl rfl
        · by_cases hxb : x = b
          · exact Or.inl hxb
          · exact Or.inr ⟨hin, hxb⟩

/-- Adjacent dedup of a sorted list produces a strictly ascending chain
(headed by the retained previous element). -/
theorem dedupAdjGo_chain (p : Nat) :
    ∀ (l : List Nat), (∀ x ∈ l, p ≤ x) → List.Pairwise (· ≤ ·) l →
    List.Chain' (· < ·) (p :: dedupAdjGo p l) := by
  intro l
  induction l generalizing p with
  | nil =>
    intro _ _
    simp [dedupAdjGo]
  | cons b l ih =>
    intro hp hl
    rw [List.pairwise_cons] at hl
    obtain ⟨hb, hl'⟩ := hl
    simp only [dedupAdjGo]
    by_cases he : b = p
    · rw [if_pos he]
      refine ih p (fun y hy => ?_) hl'
      rw [← he]
      exact hb y hy
    · rw [if_neg he]
      have hpb : p < b :=
        Nat.lt_of_le_of_ne (hp b (List.mem_cons_self b l)) (fun h => he h.symm)
      rw [List.chain'_cons]
      exact ⟨hpb, ih b hb hl'⟩

/-- Membership is unchanged by adjacent dedup of a sorted list. -/
theorem dedupAdj_mem (l : List Nat) (hl : List.Pairwise (· ≤ ·) l) :
    ∀ x, x ∈ dedupAdj l ↔ x ∈ l := by
  intro x
  cases l with
  | nil => exact Iff.rfl
  | cons a l =>
    rw [List.pairwise_cons] at hl
    obtain ⟨ha, hl'⟩ := hl
    simp only [dedupAdj, List.mem_cons, dedupAdjGo_mem l a ha hl' x]
    constructor
    · rintro (rfl | ⟨hin, -⟩)
      · exact Or.inl rfl
      · exact Or.inr hin
    · rintro (rfl | hin)
      · exact Or.inl rfl
      · by_cases hxa : x = a
        · exact Or.inl hxa
        · exact Or.inr ⟨hin, hxa⟩

/-- Adjacent dedup of a sorted list is strictly ascending. -/
theorem dedupAdj_chain (l : List Nat) (hl : List.Pairwise (· ≤ ·) l) :
    List.Chain' (· < ·) (dedupAdj l) := by
  cases l with
  | nil => exact List.chain'_nil
  | cons a l =>
    rw [List.pairwise_cons] at hl
    exact dedupAdjGo_chain a l hl.1 hl.2

/-- Splitting always yields at least one token (the empty string yields one
empty token). -/
theorem splitOnElem_ne_nil {α : Type} [DecidableEq α] (d : α) :
    ∀ (l : List α), splitOnElem d l ≠ [] := by
  intro l
  induction l with
  | nil => exact fun h => nomatch h
  | cons a as ih =>
    simp only [splitOnElem]
    by_cases ha : a = d
    · rw [if_pos ha]
      exact fun h => nomatch h
    · rw [if_neg ha]
      cases h : splitOnElem d as with
      | nil => exact fun hh => nomatch hh
      | cons f r => exact fun hh => nomatch hh

/-- A successful token parse contributes exactly one field per token. -/
theorem parseFieldTokens_length :
    ∀ (ts : List (List Char)) (fields : List Nat),
    parseFieldTokens ts = .ok fields → fields.length = ts.length := by
  intro ts
  induction ts with
  | nil =>
    intro fields h
    rw [← Except.ok.inj h]
    rfl
  | cons t ts ih =>
    intro fields h
    cases hu : parseUsize t with
    | none =>
      simp only [parseFieldTokens, hu] at h
      exact absurd h (fun hh => nomatch hh)
    | some field =>
      cases field with
      | zero =>
        simp only [parseFieldTokens, hu] at h
        rw [if_pos trivial] at h
        exact absurd h (fun hh => nomatch hh)
      | succ m =>
        simp only [parseFieldTokens, hu, if_neg (Nat.succ_ne_zero m)] at h
        cases hr : parseFieldTokens ts with
        | error e =>
          rw [hr] at h
          exact absurd h (fun hh => nomatch hh)
        | ok fs =>
          rw [hr] at h
          simp only [Except.map_ok] at h
          rw [← Except.ok.inj h]
          simp only [List.length_cons, ih fs hr]

/-- The fields returned by the token loop are exactly the 0-indexed forms of
the token values. -/
theorem parseFieldTokens_mem :
    ∀ (ts : List (List Char)) (fields : List Nat),
    parseFieldTokens ts = .ok fields →
    ∀ n, n ∈ fields ↔ ∃ t ∈ ts, parseUsize t = some (n + 1) := by
  intro ts
  induction ts with
  | nil =>
    intro fields h n
    rw [← Except.ok.inj h]
    simp
  | cons t ts ih =>
    intro fields h n
    cases hu : parseUsize t with
    | none =>
      simp only [parseFieldTokens, hu] at h
      exact absurd h (fun hh => nomatch hh)
    | some field =>
      cases field with
      | zero =>
        simp only [parseFieldTokens, hu] at h
        rw [if_pos trivial] at h
        exact absurd h (fun hh => nomatch hh)
      | succ m =>
        simp only [parseFieldTokens, hu, if_neg (Nat.succ_ne_zero m)] at h
        cases hr : parseFieldTokens ts with
        | error e =>
          rw [hr] at h
          exact absurd h (fun hh => nomatch hh)
        | ok fs =>
          rw [hr] at h
          simp only [Except.map_ok] at h
          rw [← Except.ok.inj h]
          simp only [Nat.succ_sub_one, List.mem_cons]
          constructor
          · rintro (rfl | hin)
            · exact ⟨t, Or.inl rfl, hu⟩
            · obtain ⟨t2, ht2, hp2⟩ := (ih fs hr n).mp hin
              exact ⟨t2, Or.inr ht2, hp2⟩
          · rintro ⟨t2, ht2, hp2⟩
            rcases ht2 with rfl | hin
            · rw [hu] at hp2
              have := Option.some.inj hp2
              exact Or.inl (by omega)
            · exact Or.inr ((ih fs hr n).mpr ⟨t2, hin, hp2⟩)

/-- A token that is not a positive integer makes the token loop fail. -/
theorem parseFieldTokens_err :
    ∀ (ts : List (List Char)),
    (∃ t ∈ ts, parseUsize t = none ∨ parseUsize t = some 0) →
    ∃ e, parseFieldTokens ts = .error e := by
  intro ts
  induction ts with
  | nil =>
    rintro ⟨t, ht, -⟩
    exact absurd ht (List.not_mem_nil t)
  | cons t ts ih =>
    rintro ⟨t2, ht2, hbad⟩
    cases hu : parseUsize t with
    | none => exact ⟨.invalidField, by simp [parseFieldTokens, hu]⟩
    | some field =>
      cases field with
      | zero => exact ⟨.zeroField, by simp [parseFieldTokens, hu]⟩
      | succ m =>
        rcases List.mem_cons.mp ht2 with rfl | hin
        · rw [hu] at hbad
          rcases hbad with hb | hb
          · exact absurd hb (fun hh => nomatch hh)
          · have := Option.some.inj hb
            exact absurd this (Nat.succ_ne_zero m)
        · obtain ⟨e, he⟩ := ih ⟨t2, hin, hbad⟩
          refine ⟨e, ?_⟩
          simp [parseFieldTokens, hu, Nat.succ_ne_zero m, he]

/-- The token loop never produces the empty-specification error. -/
theorem parseFieldTokens_not_noFields :
    ∀ (ts : List (List Char)) (e : FieldSpecError),
    parseFieldTokens ts = .error e → e ≠ .noFields := by
  intro ts
  induction ts with
  | nil =>
    intro e h
    exact absurd h (fun hh => nomatch hh)
  | cons t ts ih =>
    intro e h
    cases hu : parseUsize t with
    | none =>
      simp only [parseFieldTokens, hu] at h
      rw [← Except.error.inj h]
      exact fun hh => nomatch hh
    | some field =>
      cases field with
      | zero =>
        simp only [parseFieldTokens, hu] at h
        rw [if_pos trivial] at h
        rw [← Except.error.inj h]
        exact fun hh => nomatch hh
      | succ m =>
        simp only [parseFieldTokens, hu, if_neg (Nat.succ_ne_zero m)] at h
        cases hr : parseFieldTokens ts with
        | error e2 =>
          rw [hr] at h
          simp only [Except.map_error] at h
          rw [← Except.error.inj h]
          exact ih e2 hr
        | ok fs =>
          rw [hr] at h
          exact absurd h (fun hh => nomatch hh)

/-- A successful field-spec parse is the sorted dedup of the token loop. -/
theorem parse_field_spec_ok (arg : String) (l : List Nat)
    (h : parse_field_spec arg = .ok l) :
    ∃ fields, parseFieldTokens (splitOnElem ',' arg.data) = .ok fields ∧
      l = dedupAdj (sortAsc fields) := by
  cases hr : parseFieldTokens (splitOnElem ',' arg.data) with
  | error e =>
    simp only [parse_field_spec, hr] at h
    exact absurd h (fun hh => nomatch hh)
  | ok fields =>
    simp only [parse_field_spec, hr] at h
    by_cases hf : fields = []
    · rw [if_pos hf] at h
      exact absurd h (fun hh => nomatch hh)
    · rw [if_neg hf] at h
      exact ⟨fields, rfl, (Except.ok.inj h).symm⟩

/-- C4: the field-specification parser maps each comma-separated 1-indexed
token to 0-indexed form and returns the ascending duplicate-free sequence:
the quoted examples hold, zero is rejected, every result is strictly
ascending, a value is in the result exactly when some token parses to its
1-indexed form, and any token that is not a positive integer (or is zero)
makes the parse fail with a configuration error. -/
theorem parse_field_spec_contract :
    parse_field_spec "1" = .ok [0] ∧
    parse_field_spec "2,3" = .ok [1, 2] ∧
    parse_field_spec "3,2,2" = .ok [1, 2] ∧
    parse_field_spec "0" = .error .zeroField ∧
    (∀ (arg : String) (l : List Nat), parse_field_spec arg = .ok l →
      List.Chain' (· < ·) l) ∧
    (∀ (arg : String) (l : List Nat), parse_field_spec arg = .ok l →
      ∀ n, n ∈ l ↔ ∃ t ∈ splitOnElem ',' arg.data, parseUsize t = some (n + 1)) ∧
    (∀ (arg : String) (t : List Char), t ∈ splitOnElem ',' arg.data →
      (parseUsize t = none ∨ parseUsize t = some 0) →
      ∃ e, parse_field_spec arg = .error e) := by
  refine ⟨rfl, rfl, rfl, rfl, ?_, ?_, ?_⟩
  · intro arg l h
    obtain ⟨fields, -, rfl⟩ := parse_field_spec_ok arg l h
    exact dedupAdj_chain (sortAsc fields) (sortAsc_pairwise fields)
  · intro arg l h n
    obtain ⟨fields, hr, rfl⟩ := parse_field_spec_ok arg l h
    rw [dedupAdj_mem (sortAsc fields) (sortAsc_pairwise fields) n, sortAsc_mem fields n]
    exact parseFieldTokens_mem _ fields hr n
  · intro arg t ht hbad
    obtain ⟨e, he⟩ := parseFieldTokens_err _ ⟨t, ht, hbad⟩
    refine ⟨e, ?_⟩
    simp only [parse_field_spec, he]

/-- Witness for the C4 theorem: a concrete unsorted two-token spec, checked
against the strict-ascent conjunct. -/
theorem parse_field_spec_contract_witness :
    parse_field_spec "5,2" = .ok [1, 4] ∧ List.Chain' (· < ·) [1, 4] :=
  ⟨rfl, parse_field_spec_contract.2.2.2.2.1 "5,2" [1, 4] rfl⟩

/-- Counterexample for C5: the empty specification string fails with the
invalid-token error (the empty token fails the usize parse), not with the
empty-specification error the claim names. -/
theorem empty_string_error_counterexample :
    parse_field_spec "" = .error .invalidField ∧
    FieldSpecError.invalidField ≠ FieldSpecError.noFields :=
  ⟨rfl, by decide⟩

/-- C5 amended: the empty-specification error is unreachable - splitting
yields at least one token and every token either contributes a field or
aborts with a token error, so the parsed field list is never empty; in
particular the empty string fails with the invalid-token error. -/
theorem noFields_error_unreachable :
    (∀ arg : String, parse_field_spec arg ≠ .error .noFields) ∧
    parse_field_spec "" = .error .invalidField := by
  refine ⟨?_, rfl⟩
  intro arg h
  cases hr : parseFieldTokens (splitOnElem ',' arg.data) with
  | error e =>
    simp only [parse_field_spec, hr] at h
    exact parseFieldTokens_not_noFields _ e hr (Except.error.inj h)
  | ok fields =>
    simp only [parse_field_spec, hr] at h
    by_cases hf : fields = []
    · have hlen := parseFieldTokens_length _ fields hr
      rw [hf] at hlen
      cases hts : splitOnElem ',' arg.data with
      | nil => exact splitOnElem_ne_nil ',' arg.data hts
      | cons a as =>
        rw [hts] at hlen
        exact nomatch hlen
    · rw [if_neg hf] at h
      exact nomatch h

/-- Witness for the C5 amended theorem at the empty string. -/
theorem noFields_error_unreachable_witness :
    parse_field_spec "" ≠ Except.error FieldSpecError.noFields ∧
    parse_field_spec "" = Except.error FieldSpecError.invalidField :=
  ⟨noFields_error_unreachable.1 "", noFields_error_unreachable.2⟩

/-- C6 counterexample: a stream that ends in a read failure still yields a
successful run (the while-let loop treats the read error like end of
stream), both on an empty stream and after delivering a line. -/
theorem read_error_swallowed_counterexample :
    run RunConfig.default { bytes := [], readFails := true } cleanSink = .ok [] ∧
    run RunConfig.default { bytes := [97, 10], readFails := true } cleanSink =
      .ok [97, 10] :=
  ⟨rfl, rfl⟩

/-- C6 amended: write and flush failures abort the run with an error (a
failing first write on a kept record gives the write error; a failing flush
the flush error), but a read failure is never surfaced: the result of run is
independent of whether the stream ends in a read failure, and with a
failure-free sink the run returns success. -/
theorem io_failure_semantics :
    (∀ (cfg : RunConfig) (bs : List Nat) (rf : Bool) (sink : OutSink),
      run cfg { bytes := bs, readFails := rf } sink =
        run cfg { bytes := bs, readFails := false } sink) ∧
    (∀ (cfg : RunConfig) (input : InStream),
      run cfg input { writeFailsAt := none, flushFails := true } =
        .error .flushError) ∧
    (∀ (cfg : RunConfig) (input : InStream) (ff : Bool),
      keepLoop cfg (splitLines input.bytes) [] none ≠ [] →
      run cfg input { writeFailsAt := some 0, flushFails := ff } =
        .error .writeError) ∧
    (∀ (cfg : RunConfig) (bs : List Nat) (rf : Bool),
      run cfg { bytes := bs, readFails := rf } cleanSink = .ok (runPure cfg bs)) := by
  refine ⟨?_, ?_, ?_, ?_⟩
  · intro cfg bs rf sink
    unfold run
    rw [runLoop_eq_keepLoop, runLoop_eq_keepLoop]
  · intro cfg input
    unfold run
    rw [runLoop_eq_keepLoop]
    rfl
  · intro cfg input ff hk
    unfold run
    rw [runLoop_eq_keepLoop]
    have hlen : 0 < (keepLoop cfg (splitLines input.bytes) [] none).length :=
      List.length_pos.mpr hk
    simp only [sinkResult]
    rw [if_pos ⟨Nat.le_refl 0, by omega⟩]
  · intro cfg bs rf
    exact run_clean cfg bs rf

/-- Witness for the C6 amended theorem: a concrete failing first write and a
concrete read failure that still returns the full output. -/
theorem io_failure_semantics_witness :
    run RunConfig.default { bytes := [97, 10], readFails := false }
      { writeFailsAt := some 0, flushFails := false } = .error .writeError ∧
    run RunConfig.default { bytes := [97, 10], readFails := true } cleanSink =
      .ok [97, 10] := by
  constructor
  · exact io_failure_semantics.2.2.1 RunConfig.default
      { bytes := [97, 10], readFails := false } false (by decide)
  · rw [io_failure_semantics.2.2.2 RunConfig.default [97, 10] true]
    rfl

/-- Iterator.nth succeeds on an index inside the list: it returns that
element and the iterator positioned after it. -/
theorem nthConsume_lt :
    ∀ (l : List (List Nat)) (n : Nat), n < l.length →
    nthConsume n l = some (l.getD n [], l.drop (n + 1)) := by
  intro l
  induction l with
  | nil =>
    intro n h
    exact absurd h (by simp)
  | cons f fs ih =>
    intro n h
    cases n with
    | zero => rfl
    | succ m =>
      simp only [nthConsume]
      rw [ih m (Nat.lt_of_succ_lt_succ h)]
      rfl

/-- Iterator.nth fails past the end of the list. -/
theorem nthConsume_ge :
    ∀ (l : List (List Nat)) (n : Nat), l.length ≤ n → nthConsume n l = none := by
  intro l
  induction l with
  | nil =>
    intro n _
    cases n <;> rfl
  | cons f fs ih =>
    intro n h
    cases n with
    | zero => exact absurd h (by simp)
    | succ m => exact ih m (Nat.le_of_succ_le_succ h)

/-- The key-building loop over a strictly ascending index list concatenates
exactly the fields that exist, stopping at the first absent index. -/
theorem extractKeyGo_spec :
    ∀ (idxs : List Nat) (full : List (List Nat)) (lastIdx : Nat),
    List.Pairwise (· < ·) idxs → (∀ i ∈ idxs, lastIdx ≤ i) →
    extractKeyGo idxs (full.drop lastIdx) lastIdx =
      ((idxs.takeWhile (fun i => i < full.length)).map
        (fun i => full.getD i [])).flatten := by
  intro idxs
  induction idxs with
  | nil =>
    intro full lastIdx _ _
    rfl
  | cons i idxs ih =>
    intro full lastIdx hpw hle
    rw [List.pairwise_cons] at hpw
    obtain ⟨hgt, hpw'⟩ := hpw
    have hli : lastIdx ≤ i := hle i (List.mem_cons_self i idxs)
    simp only [extractKeyGo]
    by_cases hi : i < full.length
    · have hlt : i - lastIdx < (full.drop lastIdx).length := by
        rw [List.length_drop]
        omega
      rw [nthConsume_lt (full.drop lastIdx) (i - lastIdx) hlt]
      have harg : lastIdx + (i - lastIdx) = i := by omega
      have hgetD : (full.drop lastIdx).getD (i - lastIdx) [] = full.getD i [] := by
        rw [List.getD_eq_getElem?_getD, List.getD_eq_getElem?_getD, List.getElem?_drop, harg]
      have hdrop : (full.drop lastIdx).drop (i - lastIdx + 1) = full.drop (i + 1) := by
        rw [List.drop_drop]
        congr 1
        omega
      rw [hgetD, hdrop]
      show full.getD i [] ++ extractKeyGo idxs (full.drop (i + 1)) (i + 1) = _
      rw [ih full (i + 1) hpw' (fun j hj => Nat.succ_le_of_lt (hgt j hj))]
      have htw : (i :: idxs).takeWhile (fun j => decide (j < full.length)) =
          i :: idxs.takeWhile (fun j => decide (j < full.length)) := by
        simp [List.takeWhile_cons, hi]
      rw [htw, List.map_cons, List.flatten_cons]
    · have hge : (full.drop lastIdx).length ≤ i - lastIdx := by
        rw [List.length_drop]
        omega
      rw [nthConsume_ge (full.drop lastIdx) (i - lastIdx) hge]
      have htw : (i :: idxs).takeWhile (fun j => decide (j < full.length)) = [] := by
        simp [List.takeWhile_cons, hi]
      rw [htw]
      rfl

/-- C7: with a strictly ascending field specification, the key of any record
is the concatenation of exactly the requested fields that exist (the indices
up to the first absent one); in particular the key is empty when the first
requested field is absent, and no error arises (extractKey is total). -/
theorem short_line_key (cfg : RunConfig) (line : List Nat)
    (h : List.Chain' (· < ·) cfg.fields) :
    extractKey cfg line =
      ((cfg.fields.takeWhile (fun i => i < (splitFields cfg line).length)).map
        (fun i => (splitFields cfg line).getD i [])).flatten ∧
    (∀ i, cfg.fields.head? = some i → (splitFields cfg line).length ≤ i →
      extractKey cfg line = []) := by
  have hpw : List.Pairwise (· < ·) cfg.fields := List.chain'_iff_pairwise.mp h
  have hmain := extractKeyGo_spec cfg.fields (splitFields cfg line) 0 hpw
    (fun i _ => Nat.zero_le i)
  rw [List.drop_zero] at hmain
  refine ⟨hmain, ?_⟩
  intro i hi hlen
  have htw : cfg.fields.takeWhile
      (fun j => decide (j < (splitFields cfg line).length)) = [] := by
    cases hf : cfg.fields with
    | nil => rfl
    | cons j rest =>
      rw [hf] at hi
      have hj : j = i := Option.some.inj hi
      simp [List.takeWhile_cons, hj, Nat.not_lt.mpr hlen]
  show extractKey cfg line = []
  rw [show extractKey cfg line = _ from hmain, htw]
  rfl

/-- Witness for the C7 theorem: fields one and three requested of a two-field
line; the key is just the first field. -/
theorem short_line_key_witness :
    extractKey { fields := [0, 2], sorted := false, whitespace := false } [97, 9, 98] =
      ((([0, 2] : List Nat).takeWhile (fun i => i < (splitTab [97, 9, 98]).length)).map
        (fun i => (splitTab [97, 9, 98]).getD i [])).flatten ∧
    extractKey { fields := [0, 2], sorted := false, whitespace := false } [97, 9, 98] =
      [97] :=
  ⟨(short_line_key { fields := [0, 2], sorted := false, whitespace := false }
      [97, 9, 98] (by simp [List.chain'_cons])).1, by decide⟩

/-- C8 counterexample: the Config::new construction path of config.rs
defaults the field specification to the 0-indexed set containing one (the
second column), not zero. -/
theorem config_new_default_counterexample :
    Config.new.fields = [1] ∧ Config.new.fields ≠ [0] :=
  ⟨rfl, by decide⟩

/-- C8 amended: the resolved default field specification is the set
containing zero for the main.rs paths - RunConfig::default and the CLI path,
whose absent -f option parses the default spec for column one - but the
Config::new builder of config.rs defaults to the set containing one. -/
theorem default_field_spec :
    RunConfig.default.fields = [0] ∧
    get_config_fields none = .ok [0] ∧
    parse_field_spec "1" = .ok [0] ∧
    Config.new.fields = [1] :=
  ⟨rfl, rfl, rfl, rfl⟩

/-- The whitespace splitter never returns an empty piece list. -/
theorem splitWSGo_ne_nil : ∀ (l : List Nat) (r : Bool), splitWSGo l r ≠ [] := by
  intro l
  induction l with
  | nil =>
    intro r
    exact fun h => nomatch h
  | cons b bs ih =>
    intro r
    by_cases hw : isWS b = true
    · cases r with
      | true =>
        simp only [splitWSGo, hw, if_true]
        exact ih true
      | false =>
        simp only [splitWSGo, hw, if_true]
        exact fun h => nomatch h
    · rw [Bool.not_eq_true] at hw
      simp only [splitWSGo, hw, Bool.false_eq_true, if_false]
      cases h : splitWSGo bs false with
      | nil => exact fun hh => nomatch hh
      | cons f rr => exact fun hh => nomatch hh

/-- After an absorbed whitespace run, the next piece starts with a
non-whitespace byte: the first piece is nonempty unless the split is the
single trailing empty piece. -/
theorem splitWSGo_true_head : ∀ (l : List Nat),
    splitWSGo l true = [[]] ∨
    ∃ p ps, splitWSGo l true = p :: ps ∧ p ≠ [] := by
  intro l
  induction l with
  | nil => exact Or.inl rfl
  | cons b bs ih =>
    by_cases hw : isWS b = true
    · simp only [splitWSGo, hw, if_true]
      exact ih
    · rw [Bool.not_eq_true] at hw
      simp only [splitWSGo, hw, Bool.false_eq_true, if_false]
      cases h : splitWSGo bs false with
      | nil => exact absurd h (splitWSGo_ne_nil bs false)
      | cons f rr => exact Or.inr ⟨b :: f, rr, rfl, List.cons_ne_nil b f⟩

/-- Every piece of a whitespace split other than the first and the last is
nonempty: interior delimiter runs never create empty fields. -/
theorem splitWSGo_interior : ∀ (l : List Nat) (r : Bool),
    ∀ p ∈ ((splitWSGo l r).tail).dropLast, p ≠ [] := by
  intro l
  induction l with
  | nil =>
    intro r p hp
    exact absurd hp (List.not_mem_nil p)
  | cons b bs ih =>
    intro r p hp
    by_cases hw : isWS b = true
    · cases r with
      | true =>
        simp only [splitWSGo, hw, if_true] at hp
        exact ih true p hp
      | false =>
        simp only [splitWSGo, hw, if_true, Bool.false_eq_true, if_false,
          List.tail_cons] at hp
        rcases splitWSGo_true_head bs with hone | ⟨p0, ps, hcons, hp0⟩
        · rw [hone] at hp
          exact absurd hp (List.not_mem_nil p)
        · rw [hcons] at hp
          cases hps : ps with
          | nil =>
            rw [hps] at hp
            exact absurd hp (by simp)
          | cons q qs =>
            rw [hps, dropLast_cons_ne p0 (q :: qs) (List.cons_ne_nil q qs)] at hp
            rcases List.mem_cons.mp hp with rfl | hin
            · exact hp0
            · refine ih true p ?_
              rw [hcons, hps]
              exact hin
    · rw [Bool.not_eq_true] at hw
      simp only [splitWSGo, hw, Bool.false_eq_true, if_false] at hp
      cases h : splitWSGo bs false with
      | nil => exact absurd h (splitWSGo_ne_nil bs false)
      | cons f rr =>
        rw [h] at hp
        simp only [List.tail_cons] at hp
        refine ih false p ?_
        rw [h]
        exact hp

/-- The first piece of a whitespace split is empty exactly when the line is
empty or starts with a whitespace byte. -/
theorem splitWS_head_empty (l : List Nat) :
    (splitWS l).head? = some [] ↔ (∀ b, l.head? = some b → isWS b = true) := by
  cases l with
  | nil =>
    constructor
    · intro _ b hb
      exact absurd hb (fun h => nomatch h)
    · intro _
      rfl
  | cons b bs =>
    by_cases hw : isWS b = true
    · simp only [splitWS, splitWSGo, hw, if_true, List.head?_cons]
      constructor
      · intro _ c hc
        rw [← Option.some.inj hc]
        exact hw
      · intro _
        rfl
    · rw [Bool.not_eq_true] at hw
      simp only [splitWS, splitWSGo, hw, Bool.false_eq_true, if_false]
      cases h : splitWSGo bs false with
      | nil => exact absurd h (splitWSGo_ne_nil bs false)
      | cons f rr =>
        simp only [List.head?_cons]
        constructor
        · intro hc
          exact absurd (Option.some.inj hc) (List.cons_ne_nil b f)
        · intro hall
          have := hall b rfl
          rw [hw] at this
          exact absurd this (fun hh => nomatch hh)

/-- C9 counterexample: a leading whitespace run produces a leading empty
field, so a line beginning with whitespace yields different fields, and a
different key, than the same line without the leading run. -/
theorem whitespace_leading_run_counterexample :
    ([] ∈ splitWS [32, 97, 10]) ∧
    splitWS [32, 97, 10] ≠ splitWS [97, 10] ∧
    extractKey { fields := [0], sorted := false, whitespace := true } [32, 97, 10] ≠
      extractKey { fields := [0], sorted := false, whitespace := true } [97, 10] :=
  ⟨by decide, by decide, by decide⟩

/-- The last element of a cons with a nonempty tail is the tail's last. -/
theorem getLast?_cons_ne {α : Type} (a : α) (t : List α) (h : t ≠ []) :
    (a :: t).getLast? = t.getLast? := by
  cases t with
  | nil => exact absurd rfl h
  | cons b bs => exact List.getLast?_cons_cons

/-- A stream ending in a whitespace byte splits with an empty last piece, in
both splitter states; moreover with the boundary still pending the result
has a nonempty tail whose last piece is empty. -/
theorem splitWSGo_trailing (b : Nat) (hb : isWS b = true) :
    ∀ (l : List Nat),
    (splitWSGo (l ++ [b]) true).getLast? = some [] ∧
    (∃ f rr, splitWSGo (l ++ [b]) false = f :: rr ∧ rr ≠ [] ∧
      rr.getLast? = some []) := by
  intro l
  induction l with
  | nil =>
    have h1 : splitWSGo (([] : List Nat) ++ [b]) true = [[]] := by
      simp only [List.nil_append, splitWSGo, hb, if_true]
    have h2 : splitWSGo (([] : List Nat) ++ [b]) false = [[], []] := by
      simp only [List.nil_append, splitWSGo, hb, if_true, Bool.false_eq_true, if_false]
    constructor
    · rw [h1]
      rfl
    · exact ⟨[], [[]], h2, List.cons_ne_nil [] [], rfl⟩
  | cons c l ih =>
    obtain ⟨ihT, f, rr, ihF, hrr, hlast⟩ := ih
    by_cases hc : isWS c = true
    · constructor
      · rw [List.cons_append]
        simp only [splitWSGo, hc, if_true]
        exact ihT
      · refine ⟨[], splitWSGo (l ++ [b]) true, ?_, splitWSGo_ne_nil _ _, ihT⟩
        rw [List.cons_append]
        simp only [splitWSGo, hc, if_true, Bool.false_eq_true, if_false]
    · rw [Bool.not_eq_true] at hc
      have keyT : splitWSGo ((c :: l) ++ [b]) true = (c :: f) :: rr := by
        rw [List.cons_append]
        simp only [splitWSGo, hc, Bool.false_eq_true, if_false]
        rw [ihF]
      have keyF : splitWSGo ((c :: l) ++ [b]) false = (c :: f) :: rr := by
        rw [List.cons_append]
        simp only [splitWSGo, hc, Bool.false_eq_true, if_false]
        rw [ihF]
      constructor
      · rw [keyT, getLast?_cons_ne (c :: f) rr hrr]
        exact hlast
      · exact ⟨c :: f, rr, keyF, hrr, hlast⟩

/-- A line ending in a whitespace byte (a trailing whitespace run) gains a
trailing empty field. -/
theorem splitWS_trailing (l : List Nat) (b : Nat) (hb : isWS b = true) :
    (splitWS (l ++ [b])).getLast? = some [] := by
  obtain ⟨-, f, rr, hF, hrr, hlast⟩ := splitWSGo_trailing b hb l
  rw [splitWS, hF, getLast?_cons_ne f rr hrr]
  exact hlast

/-- C9 amended: in whitespace mode consecutive whitespace bytes act as one
delimiter and interior runs never produce empty fields (every piece other
than the first and last is nonempty), but a leading whitespace run produces
one leading empty field (the first piece is empty exactly when the line
starts with whitespace, so such a line generally has a different key than
the line without the leading run), and a trailing whitespace run produces
one trailing empty field (any line ending in a whitespace byte splits with
an empty last piece). -/
theorem whitespace_split_runs (l : List Nat) :
    (∀ p ∈ ((splitWS l).tail).dropLast, p ≠ []) ∧
    ((splitWS l).head? = some [] ↔ (∀ b, l.head? = some b → isWS b = true)) ∧
    (∀ (m : List Nat) (b : Nat), isWS b = true →
      (splitWS (m ++ [b])).getLast? = some []) ∧
    splitWS [97, 32, 32, 98] = [[97], [98]] ∧
    splitWS [32, 97] = [[], [97]] ∧
    splitWS [97, 32] = [[97], []] :=
  ⟨splitWSGo_interior l false, splitWS_head_empty l,
   fun m b hb => splitWS_trailing m b hb, by decide, by decide, by decide⟩

/-- Witness for the C9 amended theorem: concrete interior piece of a
three-field whitespace line is nonempty, the head-emptiness criterion at a
space-led line, and the trailing empty field of a space-ended line. -/
theorem whitespace_split_runs_witness :
    ((splitWS [97, 32, 98, 32, 99]).tail).dropLast.getD 0 [] ≠ [] ∧
    (splitWS [32, 97]).head? = some [] ∧
    (splitWS [98, 32]).getLast? = some [] := by
  refine ⟨?_, ?_, ?_⟩
  · exact (whitespace_split_runs [97, 32, 98, 32, 99]).1
      (((splitWS [97, 32, 98, 32, 99]).tail).dropLast.getD 0 []) (by decide)
  · exact ((whitespace_split_runs [32, 97]).2.1).mpr (by decide)
  · exact (whitespace_split_runs []).2.2.1 [98] 32 rfl

/-- C10: key extraction works on the full line bytes including the trailing
newline: in tab mode the last field of a terminated line carries the 0x0A
byte, in whitespace mode a terminated line gains a trailing empty field, and
an unterminated final line with the same content as an earlier terminated
line has a different key and is kept rather than dropped. -/
theorem key_includes_line_terminator :
    splitTab [97, 9, 98, 10] = [[97], [98, 10]] ∧
    splitWS [97, 10] = [[97], []] ∧
    extractKey { fields := [0], sorted := false, whitespace := false } [97, 10] ≠
      extractKey { fields := [0], sorted := false, whitespace := false } [97] ∧
    splitLines [97, 10, 97] = [[97, 10], [97]] ∧
    run { fields := [0], sorted := false, whitespace := false }
      { bytes := [97, 10, 97], readFails := false } cleanSink = .ok [97, 10, 97] :=
  ⟨by decide, by decide, by decide, by decide, rfl⟩

/-- The Grouped predicate is exactly the contiguity of equal keys: a list is
grouped iff it has no scattered pattern key a, then a different key b, then
key a again (as a subsequence). -/
theorem grouped_iff_no_scattered :
    ∀ (ks : List (List Nat)), Grouped ks ↔
      (∀ a b, List.Sublist [a, b, a] ks → a = b) := by
  intro ks
  induction ks with
  | nil =>
    constructor
    · intro _ a b h
      exact absurd (List.sublist_nil.mp h) (by simp)
    · intro _
      rfl
  | cons k ks ih =>
    rw [grouped_cons_iff]
    constructor
    · rintro ⟨h1, h2⟩ a b hsub
      rcases List.sublist_cons_iff.mp hsub with hsub' | ⟨r, hr, hrsub⟩
      · exact (ih.mp h2) a b hsub'
      · injection hr with ha hr2
        rw [← hr2] at hrsub
        have hain : a ∈ ks := hrsub.subset (by simp)
        have hhead : ks.head? = some k := h1 (ha ▸ hain)
        cases hks : ks with
        | nil =>
          rw [hks] at hhead
          exact absurd hhead (by simp)
        | cons k0 ks2 =>
          rw [hks] at hhead
          have hk0 : k0 = k := Option.some.inj hhead
          rw [hks] at hrsub
          rcases List.sublist_cons_iff.mp hrsub with hsub2 | ⟨r2, hr3, hrsub2⟩
          · refine (ih.mp h2) a b ?_
            rw [hks]
            have : List.Sublist [b, a] ks2 := hsub2
            rw [hk0, ← ha]
            exact this.cons₂ a
          · injection hr3 with hb htail
            rw [ha, hb, hk0]
    · intro hno
      refine ⟨?_, ih.mpr (fun a b hsub => hno a b (hsub.cons k))⟩
      intro hkin
      cases hks : ks with
      | nil =>
        rw [hks] at hkin
        exact absurd hkin (List.not_mem_nil k)
      | cons k0 ks2 =>
        by_cases hk0 : k0 = k
        · rw [hk0]
          rfl
        · rw [hks] at hkin
          rcases List.mem_cons.mp hkin with he | hin
          · exact absurd he.symm hk0
          · have hsub : List.Sublist [k, k0, k] (k :: ks) := by
              rw [hks]
              exact (((List.singleton_sublist.mpr hin).cons₂ k0).cons₂ k)
            exact absurd (hno k k0 hsub).symm hk0

/-- The repository's cargo test basic: whitespace mode, key = column one. -/
theorem repo_test_basic :
    runPure { fields := [0], sorted := false, whitespace := true }
      (strBytes "a 1 2\na 2 3\nb 1 2\n") = strBytes "a 1 2\nb 1 2\n" := by
  decide

/-- The repository's cargo test column_2: whitespace mode, key = column two. -/
theorem repo_test_column_2 :
    runPure { fields := [1], sorted := false, whitespace := true }
      (strBytes "a 1 2\na 2 3\nb 1 2\n") = strBytes "a 1 2\na 2 3\n" := by
  decide
